import Mathlib

/-!
Verification of the frame-by-frame color propagation core of
`basicsr/models/pbc_model.py` (`ModelInference.inference_frame_by_frame`).

The embedding models:
* a Python dict from segment-id strings `str(k)` to RGBA lists as an
  insertion-ordered association list keyed by the integer `k`;
* scores (numpy floats) as rationals;
* the two color-resolution branches (direct / accumulated) of lines 250-263;
* the per-frame walker step (bootstrap copy, self-propagation reads,
  persistence) of lines 210-269 over an abstract file store, with the
  neural oracle's output (`matches0`, `match_scores`) supplied as input.
-/

namespace PBC

/-- RGBA color as stored in the JSON color maps: a list of integers. -/
abbrev Color := List ℤ

/-- The explicit "unmatched" sentinel color `[0, 0, 0, 0]`. -/
def sentinel : Color := [0, 0, 0, 0]

/-- A frame's color map: insertion-ordered association list from segment id
(the integer value of the JSON string key `str(k)`) to its color, mirroring
a Python dict. -/
abbrev ColorMap := List (ℤ × Color)

/-- Python dict lookup `d[str(k)]` / `str(k) in d`: the first entry with the
given key (`none` models a `KeyError`). -/
def lookupKey : ColorMap → ℤ → Option Color
  | [], _ => none
  | (k', v) :: rest, k => if k' = k then some v else lookupKey rest k

/-- Python dict assignment `d[str(k)] = v`: overwrite in place when the key
exists, else append; insertion order is preserved. -/
def dictInsert (m : ColorMap) (k : ℤ) (v : Color) : ColorMap :=
  if m.any (fun p => decide (p.1 = k)) then
    m.map (fun p => if p.1 = k then (k, v) else p)
  else m ++ [(k, v)]

/-- Body of lines 252-257: the color assigned to one target segment in
direct mode (`accu = False`): the sentinel on `-1`, otherwise
`color_dict[str(item + 1)]`, where `none` models the `KeyError`. -/
def directEntry (color_dict : ColorMap) (item : ℤ) : Option Color :=
  if item = -1 then some sentinel else lookupKey color_dict (item + 1)

/-- Line 260: `[(color_dict[str(i+1)] if str(i+1) in color_dict else
[0,0,0,0]) for i in range(len(scores))]` (the comprehension variable is
local to the comprehension). -/
def colorLookup (color_dict : ColorMap) (scores : List ℚ) : List Color :=
  (List.range scores.length).map
    (fun (j : ℕ) => (lookupKey color_dict ((j : ℤ) + 1)).getD sentinel)

/-- Line 261: `np.unique(color_lookup, axis=0)` — the distinct rows of the
lookup, in ascending lexicographic order (the order on `List ℤ` is the
lexicographic one, matching numpy's row comparison). -/
def uniqueColors (lkp : List Color) : List Color :=
  List.insertionSort (· ≤ ·) lkp.dedup

/-- Line 262: `np.sum(scores[np.all(color_lookup == color, axis=1)])` — the
sum of the scores at the positions whose lookup color equals `c`. -/
def accuProb (lkp : List Color) (scores : List ℚ) (c : Color) : ℚ :=
  (((lkp.zip scores).filter (fun p => decide (p.1 = c))).map Prod.snd).sum

/-- `np.argmax`: index of the first maximal element. (`0` on `[]`, where
numpy would raise instead; `accuChoose` guards the empty case.) -/
def argmaxIdx : List ℚ → ℕ
  | [] => 0
  | x :: xs => if xs.all (fun y => decide (y ≤ x)) then 0 else argmaxIdx xs + 1

/-- Lines 259-263 body: the accumulated-mode color for one target segment —
build the per-reference color lookup, take the distinct colors, sum the
scores per distinct color, return the color with maximal accumulated score.
`none` when `scores` is empty (there `np.argmax` raises). -/
def accuChoose (color_dict : ColorMap) (scores : List ℚ) : Option Color :=
  if scores.isEmpty then none
  else
    some ((uniqueColors (colorLookup color_dict scores)).getD
      (argmaxIdx ((uniqueColors (colorLookup color_dict scores)).map
        (accuProb (colorLookup color_dict scores) scores))) sentinel)

/-- Lines 250-263: the resolution loop shared by the two branches. The state
is the pair `(color_dict, color_next_frame)` of the two dicts in scope;
iteration `i` computes the entry for target segment `i` from `color_dict`
via `entry` and stores it under key `i + 1` in `color_next_frame`; no
iteration ever writes to `color_dict`. `none` models the Python exception
aborting the loop. -/
def resolveLoop (entry : ColorMap → α → Option Color) :
    List α → ℕ → ColorMap × ColorMap → Option (ColorMap × ColorMap)
  | [], _, st => some st
  | a :: rest, i, st =>
    match entry st.1 a with
    | none => none
    | some c => resolveLoop entry rest (i + 1) (st.1, dictInsert st.2 ((i : ℤ) + 1) c)

/-- Lines 251-257: direct mode (`accu = False`), from `color_dict` and the
`matches0` row. -/
def resolveDirect (color_dict : ColorMap) (matc : List ℤ) : Option ColorMap :=
  (resolveLoop directEntry matc 0 (color_dict, [])).map Prod.snd

/-- Lines 258-263: accumulated mode (`accu = True`), from `color_dict` and
the `match_scores` rows. -/
def resolveAccu (color_dict : ColorMap) (match_scores : List (List ℚ)) : Option ColorMap :=
  (resolveLoop accuChoose match_scores 0 (color_dict, [])).map Prod.snd

/-- Verification helper (not a source construct): the association list a
successful run of `resolveLoop` appends, entry `k` holding key `i + k + 1`
and the color computed by `f` for item `k`. -/
def entriesFrom (f : α → Option Color) : List α → ℕ → ColorMap
  | [], _ => []
  | a :: rest, i => ((i : ℤ) + 1, (f a).getD sentinel) :: entriesFrom f rest (i + 1)

/-- Opaque image contents. -/
abbrev Img := ℕ

/-- The files one walker step touches, keyed by integer frame index:
the character's `seg/{idx}.json` ground-truth color maps, `gt/{idx}.png`
rendered ground truth, `seg/{idx}.png` label images, and the output
folder's `{idx}.json` / `{idx}.png`. `none` means the file is absent. -/
structure Store where
  segJson : ℤ → Option ColorMap
  gtImg : ℤ → Option Img
  segLabel : ℤ → Option Img
  outJson : ℤ → Option ColorMap
  outImg : ℤ → Option Img

/-- Write the output color-map file for frame `k`. -/
def setOutJson (st : Store) (k : ℤ) (v : ColorMap) : Store :=
  { st with outJson := fun j => if j = k then some v else st.outJson j }

/-- Write the output image file for frame `k`. -/
def setOutImg (st : Store) (k : ℤ) (v : Img) : Store :=
  { st with outImg := fun j => if j = k then some v else st.outImg j }

/-- Lines 226-233: the bootstrap branch taken when `prev_index == 0`:
`shutil.copy` of `seg/0000.json` into the output folder, and of
`gt/0000.png` when images are saved. `none` models a missing source file. -/
def bootstrapStep (s_img : Bool) (st : Store) : Option Store :=
  match st.segJson 0 with
  | none => none
  | some seed =>
    if s_img then
      match st.gtImg 0 with
      | none => none
      | some g => some (setOutImg (setOutJson st 0 seed) 0 g)
    else some (setOutJson st 0 seed)

/-- Lines 210-269, one iteration of the frame loop for frame index `n`
(`prev_index = n - 1`). `save_img`, `accu`, `self_prop` are the flags;
`colorize` abstracts `colorize_label_image` (label image + freshly dumped
color map to rendered image). The oracle's output for this frame is the
pair `matc` (`matches0`) and `mscores` (`match_scores`); in
self-propagation mode the recolorized previous result only feeds the
oracle, so it affects nothing beyond requiring the previous output image
to exist. Results: `some` of the updated store, or `none` when a read or
the resolution fails. -/
def processFrame (save_img accu self_prop : Bool) (colorize : Img → ColorMap → Img)
    (matc : List ℤ) (mscores : List (List ℚ)) (n : ℤ) (st : Store) : Option Store :=
  match (if n - 1 = 0 then bootstrapStep (save_img || self_prop) st else some st) with
  | none => none
  | some st1 =>
    match (if self_prop then st1.outImg (n - 1) else some 0) with
    | none => none
    | some _ =>
      match (if self_prop then st1.outJson (n - 1) else st1.segJson (n - 1)) with
      | none => none
      | some color_dict =>
        match (if accu then resolveAccu color_dict mscores
               else resolveDirect color_dict matc) with
        | none => none
        | some cnf =>
          if save_img || self_prop then
            match (setOutJson st1 n cnf).segLabel n with
            | none => none
            | some lbl => some (setOutImg (setOutJson st1 n cnf) n (colorize lbl cnf))
          else some (setOutJson st1 n cnf)

/-- A score row whose entire (positive) mass sits at index `j`
(used to state C5's one-hot hypothesis). -/
def OneHot (scores : List ℚ) (j : ℕ) : Prop :=
  ∃ h : j < scores.length, 0 < scores.get ⟨j, h⟩
    ∧ ∀ (k : ℕ) (hk : k < scores.length), k ≠ j → scores.get ⟨k, hk⟩ = 0

/-- A tiny concrete store used in witnesses and counterexamples: a
character whose seed (frame 0) color map is `{"1": [255,0,0,255]}`, with
seed ground-truth image `7` and a label image `3` for frame 1. -/
def demoStore : Store where
  segJson := fun j => if j = 0 then some [(1, [255, 0, 0, 255])] else none
  gtImg := fun j => if j = 0 then some 7 else none
  segLabel := fun j => if j = 1 then some 3 else none
  outJson := fun _ => none
  outImg := fun _ => none

/-- The store produced by the direct- or accumulated-mode demo run of
frame 1 without image output: seed map copied, frame-1 map written. -/
def demoOut : Store :=
  setOutJson (setOutJson demoStore 0 [(1, [255, 0, 0, 255])]) 1 [(1, [255, 0, 0, 255])]

/-- The store produced by the self-propagation demo run of frame 1: seed
map and image copied, frame-1 map and rendered image written. -/
def demoOut8 : Store :=
  setOutImg (setOutJson (setOutImg (setOutJson demoStore 0 [(1, [255, 0, 0, 255])]) 0 7)
    1 [(1, [255, 0, 0, 255])]) 1 3

/-! ### Dictionary lemmas -/

theorem lookupKey_eq_none_iff (m : ColorMap) (k : ℤ) :
    lookupKey m k = none ↔ k ∉ m.map Prod.fst := by
  induction m with
  | nil => simp [lookupKey]
  | cons p rest ih =>
    obtain ⟨k', v⟩ := p
    by_cases h : k' = k
    · subst h
      simp [lookupKey]
    · simp [lookupKey, h, ih, Ne.symm h]

theorem lookupKey_isSome_iff (m : ColorMap) (k : ℤ) :
    (lookupKey m k).isSome = true ↔ k ∈ m.map Prod.fst := by
  induction m with
  | nil => simp [lookupKey]
  | cons p rest ih =>
    obtain ⟨k', v⟩ := p
    by_cases h : k' = k
    · subst h
      simp [lookupKey]
    · simp [lookupKey, h, ih, Ne.symm h]

theorem dictInsert_eq_append (m : ColorMap) (k : ℤ) (v : Color)
    (h : ∀ p ∈ m, p.1 ≠ k) : dictInsert m k v = m ++ [(k, v)] := by
  rw [dictInsert, if_neg]
  simp only [List.any_eq_true, decide_eq_true_eq, not_exists, not_and]
  intro p hp
  exact h p hp

/-! ### The resolution loop -/

theorem entriesFrom_keys (f : α → Option Color) :
    ∀ (items : List α) (i : ℕ),
      (entriesFrom f items i).map Prod.fst
        = (List.range items.length).map (fun (k : ℕ) => (i : ℤ) + (k : ℤ) + 1)
  | [], _ => by simp [entriesFrom]
  | a :: rest, i => by
    rw [entriesFrom, List.map_cons, entriesFrom_keys f rest (i + 1),
      List.length_cons, List.range_succ_eq_map, List.map_cons, List.map_map]
    refine congrArg₂ List.cons (by push_cast; ring) ?_
    apply List.map_congr_left
    intro k _
    simp only [Function.comp_apply]
    push_cast
    ring

theorem lookupKey_entriesFrom (f : α → Option Color) :
    ∀ (items : List α) (i k : ℕ) (h : k < items.length),
      lookupKey (entriesFrom f items i) ((i : ℤ) + k + 1)
        = some ((f (items.get ⟨k, h⟩)).getD sentinel)
  | a :: rest, i, 0, _ => by simp [entriesFrom, lookupKey]
  | a :: rest, i, k + 1, h => by
    have hne : ¬ ((i : ℤ) + 1 = (i : ℤ) + (k + 1 : ℕ) + 1) := by push_cast; omega
    have hrec := lookupKey_entriesFrom f rest (i + 1) k (by simpa using h)
    simp only [entriesFrom, lookupKey, if_neg hne]
    have harg : ((i : ℤ) + (k + 1 : ℕ) + 1) = (((i + 1 : ℕ) : ℤ) + k + 1) := by push_cast; ring
    rw [harg, hrec]
    rfl

theorem resolveLoop_fst (entry : ColorMap → α → Option Color) :
    ∀ (items : List α) (i : ℕ) (st : ColorMap × ColorMap) (res : ColorMap × ColorMap),
      resolveLoop entry items i st = some res → res.1 = st.1
  | [], _, _, _ => by
    intro h
    simp only [resolveLoop, Option.some.injEq] at h
    rw [← h]
  | a :: rest, i, st, res => by
    intro h
    rw [resolveLoop] at h
    cases he : entry st.1 a with
    | none => rw [he] at h; cases h
    | some c =>
      rw [he] at h
      have h' : resolveLoop entry rest (i + 1) (st.1, dictInsert st.2 ((i : ℤ) + 1) c)
          = some res := h
      exact resolveLoop_fst entry rest (i + 1) (st.1, dictInsert st.2 ((i : ℤ) + 1) c) res h'

theorem resolveLoop_snd (entry : ColorMap → α → Option Color) :
    ∀ (items : List α) (i : ℕ) (cd curr : ColorMap),
      (∀ p ∈ curr, p.1 < (i : ℤ) + 1) →
      ∀ res, resolveLoop entry items i (cd, curr) = some res →
        res.2 = curr ++ entriesFrom (entry cd) items i
  | [], i, cd, curr => by
    intro _ res h
    simp only [resolveLoop, Option.some.injEq] at h
    rw [← h, entriesFrom, List.append_nil]
  | a :: rest, i, cd, curr => by
    intro hlt res h
    rw [resolveLoop] at h
    cases he : entry cd a with
    | none => rw [he] at h; cases h
    | some c =>
      rw [he] at h
      have h' : resolveLoop entry rest (i + 1) (cd, dictInsert curr ((i : ℤ) + 1) c)
          = some res := h
      have hins : dictInsert curr ((i : ℤ) + 1) c = curr ++ [((i : ℤ) + 1, c)] :=
        dictInsert_eq_append _ _ _ (fun p hp => by have := hlt p hp; omega)
      rw [hins] at h'
      have hlt' : ∀ p ∈ curr ++ [((i : ℤ) + 1, c)], p.1 < ((i + 1 : ℕ) : ℤ) + 1 := by
        intro p hp
        rcases List.mem_append.1 hp with hp | hp
        · have := hlt p hp; push_cast; omega
        · simp only [List.mem_singleton] at hp
          rw [hp]; push_cast; omega
      have hrec := resolveLoop_snd entry rest (i + 1) cd _ hlt' res h'
      rw [hrec, entriesFrom, he, List.append_assoc]
      rfl

theorem resolveLoop_eq_none_iff (entry : ColorMap → α → Option Color) :
    ∀ (items : List α) (i : ℕ) (cd curr : ColorMap),
      resolveLoop entry items i (cd, curr) = none ↔ ∃ a ∈ items, entry cd a = none
  | [], _, _, _ => by simp [resolveLoop]
  | a :: rest, i, cd, curr => by
    cases he : entry cd a with
    | none => simp [resolveLoop, he]
    | some c =>
      simp only [resolveLoop, he, List.mem_cons]
      rw [resolveLoop_eq_none_iff entry rest (i + 1) cd _]
      constructor
      · rintro ⟨b, hb, hbe⟩
        exact ⟨b, Or.inr hb, hbe⟩
      · rintro ⟨b, hb | hb, hbe⟩
        · rw [hb] at hbe; rw [hbe] at he; exact absurd he (by simp)
        · exact ⟨b, hb, hbe⟩

theorem resolveDirect_some (cd : ColorMap) (matc : List ℤ) (m : ColorMap)
    (h : resolveDirect cd matc = some m) :
    m = entriesFrom (directEntry cd) matc 0 := by
  rw [resolveDirect] at h
  cases hl : resolveLoop directEntry matc 0 (cd, []) with
  | none => rw [hl] at h; cases h
  | some res =>
    rw [hl] at h
    have hm : res.2 = m := by simpa using h
    have hsnd := resolveLoop_snd directEntry matc 0 cd [] (by simp) res hl
    rw [← hm, hsnd, List.nil_append]

theorem resolveAccu_some (cd : ColorMap) (rows : List (List ℚ)) (m : ColorMap)
    (h : resolveAccu cd rows = some m) :
    m = entriesFrom (accuChoose cd) rows 0 := by
  rw [resolveAccu] at h
  cases hl : resolveLoop accuChoose rows 0 (cd, []) with
  | none => rw [hl] at h; cases h
  | some res =>
    rw [hl] at h
    have hm : res.2 = m := by simpa using h
    have hsnd := resolveLoop_snd accuChoose rows 0 cd [] (by simp) res hl
    rw [← hm, hsnd, List.nil_append]

/-! ### argmax lemmas -/

theorem argmaxIdx_lt_length : ∀ (l : List ℚ), l ≠ [] → argmaxIdx l < l.length
  | [], h => absurd rfl h
  | x :: xs, _ => by
    rw [argmaxIdx]
    by_cases hall : xs.all (fun y => decide (y ≤ x)) = true
    · rw [if_pos hall]
      simp
    · rw [if_neg hall]
      have hxs : xs ≠ [] := by
        rintro rfl
        simp at hall
      simpa using Nat.succ_lt_succ (argmaxIdx_lt_length xs hxs)

theorem argmaxIdx_le : ∀ (l : List ℚ) (k : ℕ), k < l.length →
    l.getD k 0 ≤ l.getD (argmaxIdx l) 0
  | [], k, h => by simp at h
  | x :: xs, k, h => by
    rw [argmaxIdx]
    by_cases hall : xs.all (fun y => decide (y ≤ x)) = true
    · rw [if_pos hall]
      cases k with
      | zero => simp
      | succ k =>
        simp only [List.getD_cons_zero, List.getD_cons_succ]
        have hk : k < xs.length := by simpa using h
        have hmem : xs.getD k 0 ∈ xs := by
          rw [List.getD_eq_getElem _ _ hk]
          exact List.getElem_mem hk
        simpa using (List.all_eq_true.1 hall) _ hmem
    · rw [if_neg hall]
      have hxs : xs ≠ [] := by
        rintro rfl
        simp at hall
      cases k with
      | zero =>
        simp only [List.getD_cons_zero, List.getD_cons_succ]
        obtain ⟨y, hy, hxy⟩ : ∃ y ∈ xs, ¬ (y ≤ x) := by simpa using hall
        push_neg at hxy
        obtain ⟨j, hjlt, hj⟩ := List.mem_iff_getElem.1 hy
        have hle := argmaxIdx_le xs j hjlt
        rw [List.getD_eq_getElem _ _ hjlt, hj] at hle
        linarith
      | succ k =>
        simp only [List.getD_cons_succ]
        exact argmaxIdx_le xs k (by simpa using h)

theorem argmaxIdx_first : ∀ (l : List ℚ) (k : ℕ), k < argmaxIdx l →
    l.getD k 0 < l.getD (argmaxIdx l) 0
  | [], k, h => by simp [argmaxIdx] at h
  | x :: xs, k, h => by
    rw [argmaxIdx] at h ⊢
    by_cases hall : xs.all (fun y => decide (y ≤ x)) = true
    · rw [if_pos hall] at h
      omega
    · rw [if_neg hall] at h ⊢
      cases k with
      | zero =>
        simp only [List.getD_cons_zero, List.getD_cons_succ]
        obtain ⟨y, hy, hxy⟩ : ∃ y ∈ xs, ¬ (y ≤ x) := by simpa using hall
        push_neg at hxy
        obtain ⟨j, hjlt, hj⟩ := List.mem_iff_getElem.1 hy
        have hle := argmaxIdx_le xs j hjlt
        rw [List.getD_eq_getElem _ _ hjlt, hj] at hle
        linarith
      | succ k =>
        simp only [List.getD_cons_succ]
        exact argmaxIdx_first xs k (by omega)

/-! ### uniqueColors lemmas -/

theorem mem_uniqueColors {c : Color} {l : List Color} : c ∈ uniqueColors l ↔ c ∈ l := by
  rw [uniqueColors, List.mem_insertionSort, List.mem_dedup]

theorem sorted_uniqueColors (l : List Color) : (uniqueColors l).Sorted (· ≤ ·) :=
  List.sorted_insertionSort _ _

theorem uniqueColors_eq_of_perm {l₁ l₂ : List Color} (h : l₁.Perm l₂) :
    uniqueColors l₁ = uniqueColors l₂ :=
  List.eq_of_perm_of_sorted
    (((List.perm_insertionSort _ _).trans h.dedup).trans
      (List.perm_insertionSort _ _).symm)
    (sorted_uniqueColors l₁) (sorted_uniqueColors l₂)

theorem uniqueColors_ne_nil {l : List Color} (h : l ≠ []) : uniqueColors l ≠ [] := by
  obtain ⟨a, ha⟩ := List.exists_mem_of_ne_nil l h
  intro hu
  have hmem : a ∈ uniqueColors l := mem_uniqueColors.mpr ha
  rw [hu] at hmem
  simp at hmem

/-! ### colorLookup and accuProb lemmas -/

theorem length_colorLookup (cd : ColorMap) (scores : List ℚ) :
    (colorLookup cd scores).length = scores.length := by
  rw [colorLookup, List.length_map, List.length_range]

theorem colorLookup_getD (cd : ColorMap) (scores : List ℚ) (j : ℕ) (h : j < scores.length) :
    (colorLookup cd scores).getD j sentinel = (lookupKey cd ((j : ℤ) + 1)).getD sentinel := by
  have h' : j < (colorLookup cd scores).length := by
    rw [length_colorLookup]
    exact h
  rw [List.getD_eq_getElem _ _ h']
  simp [colorLookup]

theorem accuProb_congr_perm {lkp₁ lkp₂ : List Color} {s₁ s₂ : List ℚ}
    (h : (lkp₁.zip s₁).Perm (lkp₂.zip s₂)) (c : Color) :
    accuProb lkp₁ s₁ c = accuProb lkp₂ s₂ c := by
  rw [accuProb, accuProb]
  exact List.Perm.sum_eq ((h.filter _).map _)

/-- Verification helper: a successful `accuChoose` returns a distinct lookup
color whose accumulated score is maximal, and which is lexicographically
least among the distinct colors attaining that maximum. -/
theorem accuChoose_spec (cd : ColorMap) (scores : List ℚ) (hne : scores ≠ []) :
    ∃ c, accuChoose cd scores = some c
      ∧ c ∈ uniqueColors (colorLookup cd scores)
      ∧ (∀ d ∈ colorLookup cd scores,
          accuProb (colorLookup cd scores) scores d
            ≤ accuProb (colorLookup cd scores) scores c)
      ∧ (∀ d ∈ colorLookup cd scores,
          accuProb (colorLookup cd scores) scores d
              = accuProb (colorLookup cd scores) scores c → c ≤ d) := by
  have hlen := length_colorLookup cd scores
  have hlkp_ne : colorLookup cd scores ≠ [] := by
    intro h0
    rw [h0] at hlen
    exact hne (List.length_eq_zero.mp hlen.symm)
  have probs_ne : (uniqueColors (colorLookup cd scores)).map
      (accuProb (colorLookup cd scores) scores) ≠ [] := by
    intro h0
    exact uniqueColors_ne_nil hlkp_ne (List.map_eq_nil_iff.mp h0)
  have hA : argmaxIdx ((uniqueColors (colorLookup cd scores)).map
      (accuProb (colorLookup cd scores) scores)) < (uniqueColors (colorLookup cd scores)).length := by
    have := argmaxIdx_lt_length _ probs_ne
    rwa [List.length_map] at this
  have hprob : ∀ (t : ℕ) (ht : t < (uniqueColors (colorLookup cd scores)).length),
      ((uniqueColors (colorLookup cd scores)).map
        (accuProb (colorLookup cd scores) scores)).getD t 0
        = accuProb (colorLookup cd scores) scores
            ((uniqueColors (colorLookup cd scores)).get ⟨t, ht⟩) := by
    intro t ht
    rw [List.getD_eq_getElem _ _ (by rwa [List.length_map])]
    simp
  refine ⟨(uniqueColors (colorLookup cd scores)).get ⟨argmaxIdx _, hA⟩, ?_, ?_, ?_, ?_⟩
  · rw [accuChoose, if_neg (by simpa [List.isEmpty_iff] using hne)]
    congr 1
    rw [List.getD_eq_getElem _ _ hA]
    simp
  · exact List.get_mem _ _ hA
  · intro d hd
    obtain ⟨t, ht, htd⟩ := List.mem_iff_getElem.mp (mem_uniqueColors.mpr hd)
    have h1 := argmaxIdx_le ((uniqueColors (colorLookup cd scores)).map
      (accuProb (colorLookup cd scores) scores)) t (by rwa [List.length_map])
    rw [hprob t ht, hprob _ hA] at h1
    have hget : (uniqueColors (colorLookup cd scores)).get ⟨t, ht⟩ = d := by
      simpa using htd
    rwa [hget] at h1
  · intro d hd heq
    obtain ⟨t, ht, htd⟩ := List.mem_iff_getElem.mp (mem_uniqueColors.mpr hd)
    have hget : (uniqueColors (colorLookup cd scores)).get ⟨t, ht⟩ = d := by
      simpa using htd
    rcases lt_trichotomy t (argmaxIdx ((uniqueColors (colorLookup cd scores)).map
      (accuProb (colorLookup cd scores) scores))) with hlt | heqt | hgt
    · exfalso
      have h2 := argmaxIdx_first ((uniqueColors (colorLookup cd scores)).map
        (accuProb (colorLookup cd scores) scores)) t hlt
      rw [hprob t ht, hprob _ hA, hget] at h2
      rw [heq] at h2
      exact lt_irrefl _ h2
    · rw [← hget]
      apply le_of_eq
      apply congrArg
      exact Fin.mk_eq_mk.mpr heqt.symm
    · rw [← hget]
      exact (sorted_uniqueColors (colorLookup cd scores)).rel_get_of_lt
        (by simpa [Fin.mk_lt_mk] using hgt)

/-! ### Walker-step lemmas -/

theorem bootstrapStep_spec (s_img : Bool) (st st1 : Store)
    (h : bootstrapStep s_img st = some st1) :
    st1.outJson 0 = st.segJson 0
    ∧ (s_img = true → st1.outImg 0 = st.gtImg 0)
    ∧ (s_img = false → st1.outImg 0 = st.outImg 0)
    ∧ st1.segJson = st.segJson ∧ st1.gtImg = st.gtImg ∧ st1.segLabel = st.segLabel := by
  rw [bootstrapStep] at h
  cases hseed : st.segJson 0 with
  | none => rw [hseed] at h; cases h
  | some seed =>
    rw [hseed] at h
    cases s_img with
    | false =>
      simp only [Bool.false_eq_true, if_false, Option.some.injEq] at h
      subst h
      simp [setOutJson, hseed]
    | true =>
      simp only [if_true] at h
      cases hg : st.gtImg 0 with
      | none => rw [hg] at h; cases h
      | some g =>
        rw [hg] at h
        simp only [Option.some.injEq] at h
        subst h
        simp [setOutJson, setOutImg, hseed, hg]

/-- Verification helper: decomposition of a successful walker step into its
stages (bootstrap, self-propagation read, prior-map load, resolution,
persistence). -/
theorem processFrame_some (save_img accu self_prop : Bool) (colorize : Img → ColorMap → Img)
    (matc : List ℤ) (mscores : List (List ℚ)) (n : ℤ) (st st' : Store)
    (h : processFrame save_img accu self_prop colorize matc mscores n st = some st') :
    ∃ st1 cd cnf,
      (if n - 1 = 0 then bootstrapStep (save_img || self_prop) st = some st1 else st1 = st)
      ∧ (self_prop = true → (st1.outImg (n - 1)).isSome = true)
      ∧ (if self_prop then st1.outJson (n - 1) else st1.segJson (n - 1)) = some cd
      ∧ (if accu then resolveAccu cd mscores else resolveDirect cd matc) = some cnf
      ∧ (((save_img || self_prop) = true
            ∧ ∃ lbl, st1.segLabel n = some lbl
              ∧ st' = setOutImg (setOutJson st1 n cnf) n (colorize lbl cnf))
        ∨ ((save_img || self_prop) = false ∧ st' = setOutJson st1 n cnf)) := by
  rw [processFrame] at h
  cases h1 : (if n - 1 = 0 then bootstrapStep (save_img || self_prop) st else some st) with
  | none => simp [h1] at h
  | some st1 =>
    simp only [h1] at h
    cases h2 : (if self_prop then st1.outImg (n - 1) else some 0) with
    | none => simp [h2] at h
    | some w =>
      simp only [h2] at h
      cases h3 : (if self_prop then st1.outJson (n - 1) else st1.segJson (n - 1)) with
      | none => simp [h3] at h
      | some cd =>
        simp only [h3] at h
        cases h4 : (if accu then resolveAccu cd mscores else resolveDirect cd matc) with
        | none => simp [h4] at h
        | some cnf =>
          simp only [h4] at h
          refine ⟨st1, cd, cnf, ?_, ?_, h3, h4, ?_⟩
          · by_cases hb : n - 1 = 0
            · rw [if_pos hb]
              rw [if_pos hb] at h1
              exact h1
            · rw [if_neg hb]
              rw [if_neg hb] at h1
              simp only [Option.some.injEq] at h1
              exact h1.symm
          · intro hsp
            rw [if_pos hsp] at h2
            rw [h2]
            rfl
          · cases hs : (save_img || self_prop) with
            | true =>
              rw [hs] at h
              simp only [if_true, setOutJson] at h
              cases h5 : st1.segLabel n with
              | none => simp [h5] at h
              | some lbl =>
                simp only [h5] at h
                simp only [Option.some.injEq] at h
                refine Or.inl ⟨rfl, lbl, rfl, ?_⟩
                rw [← h]
                rfl
            | false =>
              rw [hs] at h
              simp only [Bool.false_eq_true, if_false, Option.some.injEq] at h
              exact Or.inr ⟨rfl, h.symm⟩

/-- Verification helper: the key list of a successful direct resolution. -/
theorem keys_resolveDirect (cd : ColorMap) (matc : List ℤ) (m : ColorMap)
    (h : resolveDirect cd matc = some m) :
    m.map Prod.fst = (List.range matc.length).map (fun (k : ℕ) => (k : ℤ) + 1) := by
  rw [resolveDirect_some cd matc m h, entriesFrom_keys]
  apply List.map_congr_left
  intro k _
  push_cast
  ring

/-- Verification helper: the key list of a successful accumulated resolution. -/
theorem keys_resolveAccu (cd : ColorMap) (rows : List (List ℚ)) (m : ColorMap)
    (h : resolveAccu cd rows = some m) :
    m.map Prod.fst = (List.range rows.length).map (fun (k : ℕ) => (k : ℤ) + 1) := by
  rw [resolveAccu_some cd rows m h, entriesFrom_keys]
  apply List.map_congr_left
  intro k _
  push_cast
  ring

theorem lookupKey_none_outside {m : ColorMap} {N : ℕ}
    (hkeys : m.map Prod.fst = (List.range N).map (fun (k : ℕ) => (k : ℤ) + 1))
    (k : ℤ) (hk : k < 1 ∨ (N : ℤ) < k) : lookupKey m k = none := by
  rw [lookupKey_eq_none_iff, hkeys]
  simp only [List.mem_map, List.mem_range]
  rintro ⟨j, hj, rfl⟩
  omega

theorem lookupKey_isSome_inside {m : ColorMap} {N : ℕ}
    (hkeys : m.map Prod.fst = (List.range N).map (fun (k : ℕ) => (k : ℤ) + 1))
    (k : ℤ) : (lookupKey m k).isSome = true ↔ 1 ≤ k ∧ k ≤ (N : ℤ) := by
  rw [lookupKey_isSome_iff, hkeys]
  simp only [List.mem_map, List.mem_range]
  constructor
  · rintro ⟨j, hj, rfl⟩
    omega
  · intro hk
    exact ⟨(k - 1).toNat, by omega, by omega⟩

/-! ### Claim theorems -/

/-- C7: when the previous index is 0 the step copies the seed color map
verbatim to the output location, copies the seed ground-truth image
verbatim exactly when image output is enabled (`save_img || self_prop`),
and applies no oracle or resolution policy to the seed artifacts: the
persisted seed values are the source artifacts unchanged. -/
theorem claim_C7 (save_img accu self_prop : Bool) (colorize : Img → ColorMap → Img)
    (matc : List ℤ) (mscores : List (List ℚ)) (n : ℤ) (st st' : Store)
    (hn : n - 1 = 0)
    (h : processFrame save_img accu self_prop colorize matc mscores n st = some st') :
    st'.outJson 0 = st.segJson 0
    ∧ ((save_img || self_prop) = true → st'.outImg 0 = st.gtImg 0)
    ∧ ((save_img || self_prop) = false → st'.outImg 0 = st.outImg 0) := by
  obtain ⟨st1, cd, cnf, hboot, _, _, _, hout⟩ :=
    processFrame_some save_img accu self_prop colorize matc mscores n st st' h
  rw [if_pos hn] at hboot
  obtain ⟨hj, himgT, himgF, _, _, _⟩ := bootstrapStep_spec _ _ _ hboot
  have hn1 : n = 1 := by omega
  subst hn1
  rcases hout with ⟨hs, lbl, hlbl, hst⟩ | ⟨hs, hst⟩
  · subst hst
    refine ⟨?_, ?_, ?_⟩
    · simp [setOutImg, setOutJson, hj]
    · intro _
      simp only [setOutImg, setOutJson]
      simp
      exact himgT hs
    · intro hf
      rw [hf] at hs
      cases hs
  · subst hst
    refine ⟨?_, ?_, ?_⟩
    · simp [setOutJson, hj]
    · intro ht
      rw [ht] at hs
      cases hs
    · intro _
      simp only [setOutJson]
      exact himgF hs

/-- C8: with `self_prop` enabled, image output is forced on: a successful
step persists a rendered image for the processed frame and copies the seed
image at bootstrap, for any value of `save_img` (including `false`). -/
theorem claim_C8 (save_img accu : Bool) (colorize : Img → ColorMap → Img)
    (matc : List ℤ) (mscores : List (List ℚ)) (n : ℤ) (st st' : Store)
    (h : processFrame save_img accu true colorize matc mscores n st = some st') :
    (st'.outImg n).isSome = true
    ∧ (n - 1 = 0 → st'.outImg 0 = st.gtImg 0) := by
  obtain ⟨st1, cd, cnf, hboot, _, _, _, hout⟩ :=
    processFrame_some save_img accu true colorize matc mscores n st st' h
  rcases hout with ⟨_, lbl, hlbl, hst⟩ | ⟨hf, _⟩
  swap
  · simp at hf
  subst hst
  constructor
  · simp [setOutImg]
  · intro hn
    rw [if_pos hn] at hboot
    obtain ⟨_, himgT, _, _, _, _⟩ := bootstrapStep_spec _ _ _ hboot
    have hn1 : n = 1 := by omega
    subst hn1
    simp only [setOutImg, setOutJson]
    simp
    exact himgT (by simp)

/-- C9: resolving a frame never mutates the prior frame's color map: the
loop's `color_dict` component is returned unchanged in both modes, and the
produced `color_next_frame` is fresh — it holds no key outside
`1..N`, so no entry of `C_prev` leaks into it (an in-place update would
retain them). -/
theorem claim_C9 (cd curr : ColorMap) (i : ℕ) :
    (∀ (matc : List ℤ) (res : ColorMap × ColorMap),
        resolveLoop directEntry matc i (cd, curr) = some res → res.1 = cd)
    ∧ (∀ (rows : List (List ℚ)) (res : ColorMap × ColorMap),
        resolveLoop accuChoose rows i (cd, curr) = some res → res.1 = cd)
    ∧ (∀ (matc : List ℤ) (m : ColorMap), resolveDirect cd matc = some m →
        ∀ k : ℤ, k < 1 ∨ (matc.length : ℤ) < k → lookupKey m k = none)
    ∧ (∀ (rows : List (List ℚ)) (m : ColorMap), resolveAccu cd rows = some m →
        ∀ k : ℤ, k < 1 ∨ (rows.length : ℤ) < k → lookupKey m k = none) := by
  refine ⟨?_, ?_, ?_, ?_⟩
  · intro matc res h
    exact resolveLoop_fst _ _ _ _ _ h
  · intro rows res h
    exact resolveLoop_fst _ _ _ _ _ h
  · intro matc m hm k hk
    exact lookupKey_none_outside (keys_resolveDirect cd matc m hm) k hk
  · intro rows m hm k hk
    exact lookupKey_none_outside (keys_resolveAccu cd rows m hm) k hk

/-- C10: the key list of a successfully produced color map is exactly
`[1, …, N]`, `N` being `len(match)` in direct mode and `len(match_scores)`
in accumulated mode: one entry per target segment, and no other key (in
particular not `"0"`). -/
theorem claim_C10 (cd : ColorMap) (matc : List ℤ) (rows : List (List ℚ)) :
    (∀ m, resolveDirect cd matc = some m →
      m.map Prod.fst = (List.range matc.length).map (fun (k : ℕ) => (k : ℤ) + 1)
      ∧ ∀ k : ℤ, (lookupKey m k).isSome = true ↔ 1 ≤ k ∧ k ≤ (matc.length : ℤ))
    ∧ (∀ m, resolveAccu cd rows = some m →
      m.map Prod.fst = (List.range rows.length).map (fun (k : ℕ) => (k : ℤ) + 1)
      ∧ ∀ k : ℤ, (lookupKey m k).isSome = true ↔ 1 ≤ k ∧ k ≤ (rows.length : ℤ)) := by
  constructor
  · intro m hm
    have hk := keys_resolveDirect cd matc m hm
    exact ⟨hk, fun k => lookupKey_isSome_inside hk k⟩
  · intro m hm
    have hk := keys_resolveAccu cd rows m hm
    exact ⟨hk, fun k => lookupKey_isSome_inside hk k⟩

/-- C2: in direct mode every matched segment's output entry is an exact
copy of `C_prev[match[i]+1]` (no blending); the resolution fails (the
`KeyError`, modelled by `none`) iff some matched segment's key
`match[i]+1` is absent from `C_prev`; and such a failure is fatal to the
frame step — no output at all is produced for that frame. -/
theorem claim_C2 (cd : ColorMap) (matc : List ℤ)
    (hrange : ∀ x ∈ matc, x = -1 ∨ 0 ≤ x) :
    (resolveDirect cd matc = none
      ↔ ∃ x ∈ matc, 0 ≤ x ∧ lookupKey cd (x + 1) = none)
    ∧ (∀ m, resolveDirect cd matc = some m →
        ∀ (k : ℕ) (h : k < matc.length), 0 ≤ matc.get ⟨k, h⟩ →
          lookupKey m ((k : ℤ) + 1) = lookupKey cd (matc.get ⟨k, h⟩ + 1))
    ∧ (∀ (save_img : Bool) (colorize : Img → ColorMap → Img)
        (mscores : List (List ℚ)) (n : ℤ) (st : Store),
        n - 1 ≠ 0 → st.segJson (n - 1) = some cd →
        resolveDirect cd matc = none →
        processFrame save_img false false colorize matc mscores n st = none) := by
  refine ⟨?_, ?_, ?_⟩
  · rw [resolveDirect, Option.map_eq_none', resolveLoop_eq_none_iff]
    constructor
    · rintro ⟨a, ha, hae⟩
      rcases hrange a ha with h1 | h1
      · rw [directEntry, if_pos h1] at hae
        cases hae
      · refine ⟨a, ha, h1, ?_⟩
        rwa [directEntry, if_neg (by omega)] at hae
    · rintro ⟨a, ha, h0, hl⟩
      refine ⟨a, ha, ?_⟩
      rw [directEntry, if_neg (by omega), hl]
  · intro m hm k h hk
    have hx := List.get_mem matc k h
    have hnn : directEntry cd (matc.get ⟨k, h⟩) ≠ none := by
      intro h0
      have hres : resolveDirect cd matc = none := by
        rw [resolveDirect, Option.map_eq_none', resolveLoop_eq_none_iff]
        exact ⟨_, hx, h0⟩
      rw [hres] at hm
      cases hm
    rw [directEntry, if_neg (by omega)] at hnn
    obtain ⟨c, hc⟩ := Option.ne_none_iff_exists'.mp hnn
    have hent := lookupKey_entriesFrom (directEntry cd) matc 0 k h
    rw [show ((0 : ℕ) : ℤ) + (k : ℤ) + 1 = (k : ℤ) + 1 from by push_cast; ring] at hent
    rw [resolveDirect_some cd matc m hm, hent, directEntry, if_neg (by omega), hc]
    rfl
  · intro save_img colorize mscores n st hn hseg hnone
    simp [processFrame, hn, hseg, hnone]

/-- C3 (amended): in direct mode a segment with `match[i] == -1` always
receives the sentinel `[0,0,0,0]` and never causes an error; accumulated
mode however ignores `matches0` and derives the entry from the scores, so
its entry need not be the sentinel (see the counterexample). -/
theorem claim_C3_amended (cd : ColorMap) (matc : List ℤ) :
    (∀ m, resolveDirect cd matc = some m →
      ∀ (k : ℕ) (h : k < matc.length), matc.get ⟨k, h⟩ = -1 →
        lookupKey m ((k : ℤ) + 1) = some sentinel)
    ∧ ((∀ x ∈ matc, x = -1) → (resolveDirect cd matc).isSome = true) := by
  constructor
  · intro m hm k h hk
    have hent := lookupKey_entriesFrom (directEntry cd) matc 0 k h
    rw [show ((0 : ℕ) : ℤ) + (k : ℤ) + 1 = (k : ℤ) + 1 from by push_cast; ring] at hent
    rw [resolveDirect_some cd matc m hm, hent, directEntry, if_pos hk]
    rfl
  · intro hall
    cases hres : resolveDirect cd matc with
    | some m => rfl
    | none =>
      exfalso
      rw [resolveDirect, Option.map_eq_none', resolveLoop_eq_none_iff] at hres
      obtain ⟨a, ha, hae⟩ := hres
      rw [directEntry, if_pos (hall a ha)] at hae
      cases hae

/-- Verification helper: accumulated resolution of a single score row. -/
theorem resolveAccu_singleton (cd : ColorMap) (scores : List ℚ) (c : Color)
    (h : accuChoose cd scores = some c) :
    resolveAccu cd [scores] = some [(1, c)] := by
  simp only [resolveAccu, resolveLoop, h]
  rfl

/-- C1: accumulated mode builds the reference lookup (`C_prev[j+1]` when
present, else the sentinel), groups reference ids by distinct color, sums
the scores per distinct color, and assigns a distinct color of maximal
accumulated score; on the concrete scenario
`C_prev = {1:[255,0,0,255], 2:[255,0,0,255], 3:[0,255,0,255]}`,
`scores = [0.3, 0.4, 0.3]`, the output for key 1 is `[255,0,0,255]`. -/
theorem claim_C1 :
    (∀ (cd : ColorMap) (scores : List ℚ) (j : ℕ), j < scores.length →
      (colorLookup cd scores).getD j sentinel = (lookupKey cd ((j : ℤ) + 1)).getD sentinel)
    ∧ (∀ (cd : ColorMap) (scores : List ℚ), scores ≠ [] →
      ∃ c, accuChoose cd scores = some c
        ∧ c ∈ uniqueColors (colorLookup cd scores)
        ∧ ∀ d ∈ uniqueColors (colorLookup cd scores),
            accuProb (colorLookup cd scores) scores d
              ≤ accuProb (colorLookup cd scores) scores c)
    ∧ (∃ m, resolveAccu [(1, [255, 0, 0, 255]), (2, [255, 0, 0, 255]), (3, [0, 255, 0, 255])]
          [[3/10, 4/10, 3/10]] = some m
        ∧ lookupKey m 1 = some [255, 0, 0, 255]) := by
  refine ⟨colorLookup_getD, ?_, ?_⟩
  · intro cd scores hne
    obtain ⟨c, hc, hmem, hmax, _⟩ := accuChoose_spec cd scores hne
    exact ⟨c, hc, hmem, fun d hd => hmax d (mem_uniqueColors.mp hd)⟩
  · refine ⟨[(1, [255, 0, 0, 255])], ?_, by decide⟩
    apply resolveAccu_singleton
    rw [accuChoose, if_neg (by decide : ¬ (List.isEmpty [(3 : ℚ)/10, 4/10, 3/10] = true))]
    rw [show colorLookup [((1 : ℤ), ([255, 0, 0, 255] : Color)), (2, [255, 0, 0, 255]),
          (3, [0, 255, 0, 255])] [3/10, 4/10, 3/10]
        = [[255, 0, 0, 255], [255, 0, 0, 255], [0, 255, 0, 255]] from by decide]
    rw [show uniqueColors [[255, 0, 0, 255], [255, 0, 0, 255], [0, 255, 0, 255]]
        = [[0, 255, 0, 255], [255, 0, 0, 255]] from by decide]
    rw [List.map_cons, List.map_cons, List.map_nil]
    rw [show accuProb [[255, 0, 0, 255], [255, 0, 0, 255], [0, 255, 0, 255]]
        [3/10, 4/10, 3/10] [0, 255, 0, 255] = 3/10 from by norm_num [accuProb]]
    rw [show accuProb [[255, 0, 0, 255], [255, 0, 0, 255], [0, 255, 0, 255]]
        [3/10, 4/10, 3/10] [255, 0, 0, 255] = 7/10 from by norm_num [accuProb]]
    rw [show argmaxIdx [3/10, 7/10] = 1 from by norm_num [argmaxIdx]]
    rfl

/-- C4 counterexample: two reference segments with distinct colors and
exactly tied scores. In lookup (reference-id) order the color of reference
id 1, `[1,0,0,255]`, comes first, yet the code returns `[0,1,0,255]` —
`np.unique` reorders the distinct colors lexicographically and `np.argmax`
takes the first maximum there — refuting the claimed first-occurrence
tie-break. -/
theorem claim_C4_counterexample :
    colorLookup [((1 : ℤ), ([1, 0, 0, 255] : Color)), (2, [0, 1, 0, 255])] [1/2, 1/2]
      = [[1, 0, 0, 255], [0, 1, 0, 255]]
    ∧ accuProb [[1, 0, 0, 255], [0, 1, 0, 255]] [1/2, 1/2] [1, 0, 0, 255]
        = accuProb [[1, 0, 0, 255], [0, 1, 0, 255]] [1/2, 1/2] [0, 1, 0, 255]
    ∧ accuChoose [((1 : ℤ), ([1, 0, 0, 255] : Color)), (2, [0, 1, 0, 255])] [1/2, 1/2]
        = some [0, 1, 0, 255]
    ∧ ([0, 1, 0, 255] : Color) ≠ [1, 0, 0, 255] := by
  refine ⟨by decide, by norm_num [accuProb], ?_, by decide⟩
  rw [accuChoose, if_neg (by decide : ¬ (List.isEmpty [(1 : ℚ)/2, 1/2] = true))]
  rw [show colorLookup [((1 : ℤ), ([1, 0, 0, 255] : Color)), (2, [0, 1, 0, 255])] [1/2, 1/2]
      = [[1, 0, 0, 255], [0, 1, 0, 255]] from by decide]
  rw [show uniqueColors [[1, 0, 0, 255], [0, 1, 0, 255]]
      = [[0, 1, 0, 255], [1, 0, 0, 255]] from by decide]
  rw [List.map_cons, List.map_cons, List.map_nil]
  rw [show accuProb [[1, 0, 0, 255], [0, 1, 0, 255]] [1/2, 1/2] [0, 1, 0, 255] = 1/2
      from by norm_num [accuProb]]
  rw [show accuProb [[1, 0, 0, 255], [0, 1, 0, 255]] [1/2, 1/2] [1, 0, 0, 255] = 1/2
      from by norm_num [accuProb]]
  rw [show argmaxIdx [(1 : ℚ)/2, 1/2] = 0 from by norm_num [argmaxIdx]]
  rfl

/-- C4 (amended): the returned color's accumulated score is maximal, and
among the distinct colors attaining the maximal accumulated score the code
deterministically selects the lexicographically least one (`np.unique`
sorts the distinct colors ascending; `np.argmax` returns the first
maximum), not the first in reference-id lookup order. -/
theorem claim_C4_amended (cd : ColorMap) (scores : List ℚ) (c : Color)
    (h : accuChoose cd scores = some c) :
    ∀ d ∈ uniqueColors (colorLookup cd scores),
      accuProb (colorLookup cd scores) scores d ≤ accuProb (colorLookup cd scores) scores c
      ∧ (accuProb (colorLookup cd scores) scores d
          = accuProb (colorLookup cd scores) scores c → c ≤ d) := by
  have hne : scores ≠ [] := by
    intro h0
    rw [h0] at h
    simp [accuChoose] at h
  obtain ⟨c', hc', _, hmax, hmin⟩ := accuChoose_spec cd scores hne
  rw [h] at hc'
  have hcc : c = c' := by
    simpa using hc'
  subst hcc
  intro d hd
  exact ⟨hmax d (mem_uniqueColors.mp hd), hmin d (mem_uniqueColors.mp hd)⟩

/-- C6: re-labelling reference ids — any permutation of the (color, score)
pairs of the reference lookup — leaves the chosen output color unchanged:
the choice only depends on the distinct colors and their per-color score
sums, both invariant under such a permutation. -/
theorem claim_C6 (cd₁ cd₂ : ColorMap) (s₁ s₂ : List ℚ)
    (h : ((colorLookup cd₁ s₁).zip s₁).Perm ((colorLookup cd₂ s₂).zip s₂)) :
    accuChoose cd₁ s₁ = accuChoose cd₂ s₂ := by
  have hlen1 : (colorLookup cd₁ s₁).length = s₁.length := length_colorLookup cd₁ s₁
  have hlen2 : (colorLookup cd₂ s₂).length = s₂.length := length_colorLookup cd₂ s₂
  have hzlen1 : ((colorLookup cd₁ s₁).zip s₁).length = s₁.length := by
    rw [List.length_zip, hlen1, min_self]
  have hzlen2 : ((colorLookup cd₂ s₂).zip s₂).length = s₂.length := by
    rw [List.length_zip, hlen2, min_self]
  have hslen : s₁.length = s₂.length := by
    rw [← hzlen1, ← hzlen2]
    exact h.length_eq
  have hperm : (colorLookup cd₁ s₁).Perm (colorLookup cd₂ s₂) := by
    have h1 : ((colorLookup cd₁ s₁).zip s₁).map Prod.fst = colorLookup cd₁ s₁ :=
      List.map_fst_zip _ _ (le_of_eq hlen1)
    have h2 : ((colorLookup cd₂ s₂).zip s₂).map Prod.fst = colorLookup cd₂ s₂ :=
      List.map_fst_zip _ _ (le_of_eq hlen2)
    rw [← h1, ← h2]
    exact h.map Prod.fst
  by_cases hemp : s₁ = []
  · subst hemp
    have h0 : s₂ = [] := by simpa using hslen.symm
    subst h0
    rfl
  · have hemp2 : s₂ ≠ [] := by
      intro h0
      rw [h0] at hslen
      exact hemp (List.length_eq_zero.mp hslen)
    rw [accuChoose, accuChoose, if_neg (by simpa [List.isEmpty_iff] using hemp),
      if_neg (by simpa [List.isEmpty_iff] using hemp2)]
    have huniq : uniqueColors (colorLookup cd₁ s₁) = uniqueColors (colorLookup cd₂ s₂) :=
      uniqueColors_eq_of_perm hperm
    rw [huniq]
    have hmap : (uniqueColors (colorLookup cd₂ s₂)).map (accuProb (colorLookup cd₁ s₁) s₁)
        = (uniqueColors (colorLookup cd₂ s₂)).map (accuProb (colorLookup cd₂ s₂) s₂) :=
      List.map_congr_left (fun d _ => accuProb_congr_perm h d)
    rw [hmap]

/-- Verification helper: dropping filtered-out pairs whose score is zero
does not change the score sum. -/
theorem sum_filter_of_zero (l : List (Color × ℚ)) (p : Color × ℚ → Bool)
    (h : ∀ x ∈ l, p x = false → x.2 = 0) :
    ((l.filter p).map Prod.snd).sum = (l.map Prod.snd).sum := by
  induction l with
  | nil => rfl
  | cons a rest ih =>
    have ih' := ih (fun x hx hpx => h x (List.mem_cons_of_mem a hx) hpx)
    by_cases hp : p a = true
    · simp [List.filter_cons, hp, ih']
    · have hpf : p a = false := by simpa using hp
      have ha0 : a.2 = 0 := h a (List.mem_cons_self a rest) hpf
      simp [List.filter_cons, hpf, ha0, ih']

/-- Verification helper: the sum of a one-hot score row is its single
carried value. -/
theorem sum_oneHot : ∀ (scores : List ℚ) (j : ℕ) (hj : j < scores.length),
    (∀ (k : ℕ) (hk : k < scores.length), k ≠ j → scores.get ⟨k, hk⟩ = 0) →
    scores.sum = scores.get ⟨j, hj⟩
  | [], j, hj, _ => by simp at hj
  | x :: xs, 0, _, hz => by
    have hxs : xs.sum = 0 := by
      apply List.sum_eq_zero
      intro y hy
      obtain ⟨t, ht, hty⟩ := List.mem_iff_getElem.mp hy
      have h0 := hz (t + 1) (by simpa using Nat.succ_lt_succ ht) (by omega)
      rw [← hty]
      simpa using h0
    simp [hxs]
  | x :: xs, j + 1, hj, hz => by
    have hx : x = 0 := hz 0 (by omega) (by omega)
    have hxs := sum_oneHot xs j (by simpa using hj)
      (fun k hk hkj => hz (k + 1) (by simpa using Nat.succ_lt_succ hk) (by omega))
    simp [hx, hxs]

/-- Verification helper: on a one-hot score row whose hot reference id is
present in `C_prev`, the accumulated choice is that reference's color. -/
theorem accuChoose_oneHot (cd : ColorMap) (scores : List ℚ) (j : ℕ) (c : Color)
    (hone : OneHot scores j) (hc : lookupKey cd ((j : ℤ) + 1) = some c) :
    accuChoose cd scores = some c := by
  obtain ⟨hj, hpos, hzero⟩ := hone
  have hne : scores ≠ [] := by
    intro h0
    rw [h0] at hj
    simp at hj
  have hlen : (colorLookup cd scores).length = scores.length := length_colorLookup cd scores
  have hjl : j < (colorLookup cd scores).length := by omega
  have hlkpj : (colorLookup cd scores).getD j sentinel = c := by
    rw [colorLookup_getD cd scores j hj, hc]
    rfl
  rw [List.getD_eq_getElem _ _ hjl] at hlkpj
  have hcl : c ∈ colorLookup cd scores := by
    rw [← hlkpj]
    exact List.getElem_mem hjl
  have hzip : ∀ p ∈ (colorLookup cd scores).zip scores, p.1 = c ∨ p.2 = 0 := by
    intro p hp
    obtain ⟨t, ht, hpt⟩ := List.mem_iff_getElem.mp hp
    have htz : t < scores.length := by
      rw [List.length_zip] at ht
      omega
    have htl : t < (colorLookup cd scores).length := by omega
    rw [List.getElem_zip] at hpt
    by_cases htj : t = j
    · subst htj
      left
      rw [← hpt]
      exact hlkpj
    · right
      rw [← hpt]
      have h0 := hzero t htz htj
      simpa using h0
  have hzero_d : ∀ d, d ≠ c → accuProb (colorLookup cd scores) scores d = 0 := by
    intro d hd
    rw [accuProb]
    apply List.sum_eq_zero
    intro y hy
    simp only [List.mem_map] at hy
    obtain ⟨p, hp, rfl⟩ := hy
    have hpf := List.mem_filter.mp hp
    have hpd : p.1 = d := by simpa using hpf.2
    rcases hzip p hpf.1 with h1 | h1
    · exact absurd (hpd.symm.trans h1) hd
    · exact h1
  have hzf : ∀ x ∈ (colorLookup cd scores).zip scores,
      (fun p => decide (p.1 = c)) x = false → x.2 = 0 := by
    intro x hx hpx
    rcases hzip x hx with h1 | h1
    · simp [h1] at hpx
    · exact h1
  have hsum : accuProb (colorLookup cd scores) scores c = scores.get ⟨j, hj⟩ := by
    rw [accuProb, sum_filter_of_zero _ _ hzf, List.map_snd_zip _ _ (le_of_eq hlen.symm)]
    exact sum_oneHot scores j hj hzero
  obtain ⟨c', hc', _, hmax, _⟩ := accuChoose_spec cd scores hne
  have hcc : c' = c := by
    by_contra hne'
    have h0 := hzero_d c' hne'
    have h1 := hmax c hcl
    rw [h0, hsum] at h1
    linarith
  rw [hc', hcc]

/-- Verification helper: `entriesFrom` only depends on the per-index entry
values. -/
theorem entriesFrom_congr {f : α → Option Color} {g : β → Option Color} :
    ∀ (items : List α) (items' : List β) (i : ℕ), items.length = items'.length →
      (∀ (k : ℕ) (h : k < items.length) (h' : k < items'.length),
        f (items.get ⟨k, h⟩) = g (items'.get ⟨k, h'⟩)) →
      entriesFrom f items i = entriesFrom g items' i
  | [], [], _, _, _ => rfl
  | [], b :: bs, _, hl, _ => by simp at hl
  | a :: as, [], _, hl, _ => by simp at hl
  | a :: as, b :: bs, i, hl, hfg => by
    rw [entriesFrom, entriesFrom]
    have h0 : f a = g b := hfg 0 (by simp) (by simp)
    rw [h0]
    rw [entriesFrom_congr as bs (i + 1) (by simpa using hl)
      (fun k h h' => hfg (k + 1) (by simpa using Nat.succ_lt_succ h)
        (by simpa using Nat.succ_lt_succ h'))]

/-- C5: when every score row is one-hot at the (non-negative) index that
`matches0` reports for that segment, accumulated mode produces exactly the
direct-mode color map. -/
theorem claim_C5 (cd : ColorMap) (matc : List ℤ) (rows : List (List ℚ)) (m : ColorMap)
    (hlen : matc.length = rows.length)
    (hone : ∀ (k : ℕ) (h : k < matc.length) (h' : k < rows.length),
      ∃ j : ℕ, matc.get ⟨k, h⟩ = (j : ℤ) ∧ OneHot (rows.get ⟨k, h'⟩) j)
    (hdir : resolveDirect cd matc = some m) :
    resolveAccu cd rows = some m := by
  have hpoint : ∀ (k : ℕ) (h : k < matc.length) (h' : k < rows.length),
      directEntry cd (matc.get ⟨k, h⟩) = accuChoose cd (rows.get ⟨k, h'⟩) := by
    intro k h h'
    obtain ⟨j, hkj, honek⟩ := hone k h h'
    have hnn : directEntry cd (matc.get ⟨k, h⟩) ≠ none := by
      intro h0
      have hres : resolveDirect cd matc = none := by
        rw [resolveDirect, Option.map_eq_none', resolveLoop_eq_none_iff]
        exact ⟨_, List.get_mem matc k h, h0⟩
      rw [hres] at hdir
      cases hdir
    rw [hkj] at hnn ⊢
    rw [directEntry, if_neg (by omega)] at hnn ⊢
    obtain ⟨c, hc⟩ := Option.ne_none_iff_exists'.mp hnn
    rw [hc, accuChoose_oneHot cd _ j c honek hc]
  cases hacc : resolveAccu cd rows with
  | none =>
    exfalso
    rw [resolveAccu, Option.map_eq_none', resolveLoop_eq_none_iff] at hacc
    obtain ⟨row, hrow, hrow0⟩ := hacc
    obtain ⟨t, ht, hrt⟩ := List.mem_iff_getElem.mp hrow
    have hp := hpoint t (by omega) ht
    rw [show rows.get ⟨t, ht⟩ = row from by simpa using hrt, hrow0] at hp
    have hres : resolveDirect cd matc = none := by
      rw [resolveDirect, Option.map_eq_none', resolveLoop_eq_none_iff]
      exact ⟨_, List.get_mem matc t (by omega), hp⟩
    rw [hres] at hdir
    cases hdir
  | some m' =>
    have hmm : m' = m := by
      rw [resolveAccu_some cd rows m' hacc, resolveDirect_some cd matc m hdir]
      exact (entriesFrom_congr matc rows 0 hlen hpoint).symm
    rw [hmm]

/-- C3 counterexample: seed map `{"1":[255,0,0,255]}`, oracle output
`matches0 = [-1]` (segment 1 unmatched) with `match_scores = [[1]]`. The
accumulated-mode frame step stores `[255,0,0,255]` for segment 1 — not the
sentinel — because the accumulated branch never consults `matches0`;
direct mode on the same oracle output does store the sentinel. -/
theorem claim_C3_counterexample :
    (processFrame false true false (fun a _ => a) [-1] [[1]] 1 demoStore).map
        (fun st' => st'.outJson 1) = some (some [(1, [255, 0, 0, 255])])
    ∧ resolveDirect [((1 : ℤ), ([255, 0, 0, 255] : Color))] [-1] = some [(1, sentinel)]
    ∧ ([255, 0, 0, 255] : Color) ≠ sentinel := by
  refine ⟨?_, by decide, by decide⟩
  have hacc : resolveAccu [((1 : ℤ), ([255, 0, 0, 255] : Color))] [[1]]
      = some [(1, [255, 0, 0, 255])] := by
    apply resolveAccu_singleton
    rw [accuChoose, if_neg (by decide : ¬ (List.isEmpty [(1 : ℚ)] = true))]
    rw [show colorLookup [((1 : ℤ), ([255, 0, 0, 255] : Color))] [(1 : ℚ)]
        = [[255, 0, 0, 255]] from by decide]
    rw [show uniqueColors [[255, 0, 0, 255]] = [[255, 0, 0, 255]] from by decide]
    rfl
  have hpf : processFrame false true false (fun a _ => a) [-1] [[1]] 1 demoStore
      = match resolveAccu [((1 : ℤ), ([255, 0, 0, 255] : Color))] [[1]] with
        | none => none
        | some cnf =>
            some (setOutJson (setOutJson demoStore 0 [(1, [255, 0, 0, 255])]) 1 cnf) := rfl
  rw [hpf, hacc]
  rfl

/-- C1 witness: the lookup-construction law at a concrete index, and the
concrete accumulated scenario of the claim. -/
theorem claim_C1_witness :
    (colorLookup [((1 : ℤ), ([255, 0, 0, 255] : Color))] [1]).getD 0 sentinel
      = (lookupKey [((1 : ℤ), ([255, 0, 0, 255] : Color))] ((0 : ℤ) + 1)).getD sentinel
    ∧ (resolveAccu [(1, [255, 0, 0, 255]), (2, [255, 0, 0, 255]), (3, [0, 255, 0, 255])]
        [[3/10, 4/10, 3/10]]).map (fun m => lookupKey m 1)
      = some (some [255, 0, 0, 255]) := by
  constructor
  · exact claim_C1.1 [((1 : ℤ), ([255, 0, 0, 255] : Color))] [1] 0 (by simp)
  · obtain ⟨m, hm, hl⟩ := claim_C1.2.2
    rw [hm]
    simpa using hl

/-- C2 witness: the failure characterisation and the exact-copy law at
concrete inputs. -/
theorem claim_C2_witness :
    (resolveDirect [((1 : ℤ), ([255, 0, 0, 255] : Color))] [1] = none
      ↔ ∃ x ∈ ([1] : List ℤ), 0 ≤ x
          ∧ lookupKey [((1 : ℤ), ([255, 0, 0, 255] : Color))] (x + 1) = none)
    ∧ lookupKey [((1 : ℤ), ([255, 0, 0, 255] : Color))] ((0 : ℤ) + 1)
        = lookupKey [((1 : ℤ), ([255, 0, 0, 255] : Color))] (([0] : List ℤ).get ⟨0, by decide⟩ + 1) :=
  ⟨(claim_C2 [((1 : ℤ), ([255, 0, 0, 255] : Color))] [1] (by decide)).1,
   (claim_C2 [((1 : ℤ), ([255, 0, 0, 255] : Color))] [0] (by decide)).2.1
     [(1, [255, 0, 0, 255])] (by decide) 0 (by decide) (by decide)⟩

/-- C3 witness (amended claim): in direct mode an unmatched segment gets
the sentinel, and an all-unmatched frame resolves without error. -/
theorem claim_C3_witness :
    lookupKey [((1 : ℤ), sentinel)] ((0 : ℤ) + 1) = some sentinel
    ∧ (resolveDirect [((5 : ℤ), ([9, 9, 9, 255] : Color))] [-1, -1]).isSome = true :=
  ⟨(claim_C3_amended [((5 : ℤ), ([9, 9, 9, 255] : Color))] [-1]).1
      [(1, sentinel)] (by decide) 0 (by decide) (by decide),
   (claim_C3_amended [((5 : ℤ), ([9, 9, 9, 255] : Color))] [-1, -1]).2 (by decide)⟩

/-- C4 witness (amended claim): the maximality and lexicographic-least
tie-break law instantiated on a concrete input. -/
theorem claim_C4_witness :
    accuProb (colorLookup [] [(1 : ℚ)]) [1] sentinel
        ≤ accuProb (colorLookup [] [(1 : ℚ)]) [1] sentinel
    ∧ (accuProb (colorLookup [] [(1 : ℚ)]) [1] sentinel
        = accuProb (colorLookup [] [(1 : ℚ)]) [1] sentinel → sentinel ≤ sentinel) := by
  have hch : accuChoose [] [(1 : ℚ)] = some sentinel := by
    rw [accuChoose, if_neg (by decide : ¬ (List.isEmpty [(1 : ℚ)] = true))]
    rw [show colorLookup [] [(1 : ℚ)] = [sentinel] from by decide]
    rw [show uniqueColors [sentinel] = [sentinel] from by decide]
    rfl
  exact claim_C4_amended [] [1] sentinel hch sentinel (by decide)

/-- C5 witness: a one-hot score row at the matched index makes accumulated
mode reproduce the direct-mode map. -/
theorem claim_C5_witness :
    resolveAccu [((1 : ℤ), ([5, 5, 5, 255] : Color))] [[1]] = some [(1, [5, 5, 5, 255])] := by
  apply claim_C5 [((1 : ℤ), ([5, 5, 5, 255] : Color))] [0] [[1]] [(1, [5, 5, 5, 255])] (by decide)
  · intro k h h'
    have hk0 : k = 0 := by
      simp at h
      exact h
    subst hk0
    refine ⟨0, rfl, Nat.one_pos, zero_lt_one, ?_⟩
    intro t ht htne
    have ht1 : t < 1 := ht
    omega
  · decide

/-- C6 witness: swapping the two reference ids (with their colors and
scores) leaves the accumulated choice unchanged. -/
theorem claim_C6_witness :
    accuChoose [((1 : ℤ), ([7, 7, 7, 255] : Color)), (2, [9, 9, 9, 255])] [2, 1]
      = accuChoose [((1 : ℤ), ([9, 9, 9, 255] : Color)), (2, [7, 7, 7, 255])] [1, 2] := by
  apply claim_C6
  rw [show (colorLookup [((1 : ℤ), ([7, 7, 7, 255] : Color)), (2, [9, 9, 9, 255])]
        [2, 1]).zip ([2, 1] : List ℚ)
      = [(([7, 7, 7, 255] : Color), (2 : ℚ)), ([9, 9, 9, 255], 1)] from rfl]
  rw [show (colorLookup [((1 : ℤ), ([9, 9, 9, 255] : Color)), (2, [7, 7, 7, 255])]
        [1, 2]).zip ([1, 2] : List ℚ)
      = [(([9, 9, 9, 255] : Color), (1 : ℚ)), ([7, 7, 7, 255], 2)] from rfl]
  exact List.Perm.swap _ _ _

/-- C7 witness: the bootstrap copy on the demo store. -/
theorem claim_C7_witness :
    demoOut.outJson 0 = demoStore.segJson 0
    ∧ demoOut.outImg 0 = demoStore.outImg 0 :=
  ⟨(claim_C7 false false false (fun a _ => a) [0] [] 1 demoStore demoOut (by decide) rfl).1,
   (claim_C7 false false false (fun a _ => a) [0] [] 1 demoStore demoOut (by decide) rfl).2.2 rfl⟩

/-- C8 witness: the self-propagation run persists a rendered image for the
processed frame and copies the seed image, with `save_img = false`. -/
theorem claim_C8_witness :
    (demoOut8.outImg 1).isSome = true ∧ demoOut8.outImg 0 = demoStore.gtImg 0 :=
  ⟨(claim_C8 false false (fun a _ => a) [0] [] 1 demoStore demoOut8 rfl).1,
   (claim_C8 false false (fun a _ => a) [0] [] 1 demoStore demoOut8 rfl).2 (by decide)⟩

/-- C9 witness: the loop returns `color_dict` unchanged and the fresh map
holds no key beyond the segment range. -/
theorem claim_C9_witness :
    (([((1 : ℤ), ([255, 0, 0, 255] : Color))], [((1 : ℤ), ([255, 0, 0, 255] : Color))])
        : ColorMap × ColorMap).1 = [((1 : ℤ), ([255, 0, 0, 255] : Color))]
    ∧ lookupKey [((1 : ℤ), ([255, 0, 0, 255] : Color))] 2 = none :=
  ⟨(claim_C9 [((1 : ℤ), ([255, 0, 0, 255] : Color))] [] 0).1 [0]
      ([(1, [255, 0, 0, 255])], [(1, [255, 0, 0, 255])]) (by decide),
   (claim_C9 [((1 : ℤ), ([255, 0, 0, 255] : Color))] [] 0).2.2.1 [0]
      [(1, [255, 0, 0, 255])] (by decide) 2 (by decide)⟩

/-- C10 witness: the key list and key-range law on a one-segment frame. -/
theorem claim_C10_witness :
    ([((1 : ℤ), sentinel)] : ColorMap).map Prod.fst
      = (List.range ([-1] : List ℤ).length).map (fun (k : ℕ) => (k : ℤ) + 1)
    ∧ ((lookupKey [((1 : ℤ), sentinel)] 1).isSome = true
        ↔ 1 ≤ (1 : ℤ) ∧ (1 : ℤ) ≤ (([-1] : List ℤ).length : ℤ)) := by
  have h := (claim_C10 [] [-1] []).1 [(1, sentinel)] (by decide)
  exact ⟨h.1, h.2 1⟩

end PBC
